import Mathlib

/-!
# Verification of `django-picklefield` (`picklefield/fields.py`)

This file is a shallow embedding of the repository's single module,
`picklefield/fields.py`, together with proofs about the specification's
claims for it.

The module stores arbitrary Python values in a text column by pickling,
optionally zlib-compressing, and base64-encoding them (`dbsafe_encode` /
`dbsafe_decode`), and integrates with the ORM through the field hooks
`get_default`, `to_python`, `pre_save`, `get_db_prep_value` and
`get_lookup`.

## Modelling choices

* Python in-memory values are modelled as object graphs: a heap
  (`List Node`) in which every node refers to its children by heap index,
  and each reference points to a *strictly smaller* index (the graphs the
  field ever sees are acyclic; index ordering is a topological order).
  This representation keeps the *reference topology* of a value — which
  sub-objects are shared — observable, because both `copy.deepcopy` and
  `pickle.dumps` are sensitive to it: `deepcopy` preserves internal
  sharing through its memo dictionary, and `pickle` emits back-references
  (memo `GET`s) for sub-objects it has already written.
* `pickle.dumps` / `pickle.loads` are external library collaborators; they
  are modelled by `pdump` / `ploadN`: a deterministic prefix byte format
  with a memo table in which every compound object (tuple/list/dict/set/
  `_ObjectWrapper`) is recorded after being written, and repeated
  references to the same heap node are emitted as `GET` back-references,
  exactly the behaviour `dbsafe_encode`'s deep-copy work-around exists
  for.  Scalars are written inline, mirroring pickle, which does not
  memoize small atomic values.  The stream starts with a protocol header,
  so distinct protocols give distinct streams (the reason `fields.py`
  pins the protocol).
* `zlib.compress`/`decompress` and `base64.b64encode`/`b64decode` are
  modelled abstractly but faithfully to the properties the field relies
  on: both are injective, both have partial inverses that fail on
  ill-formed input (`b64decode` rejects streams containing an invalid
  symbol, `decompress` rejects streams without the compression header).
* Python's `==` on the data reachable here is structural equality of the
  *unfolded* values, i.e. equality of `toTree`; two graphs that share
  sub-structure differently can be `==`-equal.
* Callables and objects exposing `prepare_database_save` (the values
  `wrap_conflictual_object` guards against) are modelled as dedicated
  leaf nodes `Node.func` / `Node.hooked`; pickle serializes a function by
  reference (its qualified name), which the model mirrors.
-/

/-- Python scalar values stored in leaf nodes.  String contents are lists
of character codes so that the whole byte pipeline stays first order. -/
inductive PyScalar where
  | pnone : PyScalar
  | pbool (b : Bool) : PyScalar
  | pint (n : Int) : PyScalar
  | pstr (chars : List Nat) : PyScalar
deriving DecidableEq, Repr

/-- The compound constructors of the modelled fragment.  `wrapper` is the
module's `_ObjectWrapper` (a one-slot holder around a conflictual
value). -/
inductive NodeKind where
  | tuple : NodeKind
  | list : NodeKind
  | dict : NodeKind
  | set : NodeKind
  | wrapper : NodeKind
deriving DecidableEq, Repr

/-- One heap cell of a Python object graph.  `comp k es` holds the heap
indices of its children (for `dict`, keys and values interleaved).
`func` is a callable (pickled by reference), `hooked` an object exposing
the ORM-reserved `prepare_database_save` attribute. -/
inductive Node where
  | atom (a : PyScalar) : Node
  | func (name : Nat) : Node
  | hooked (name : Nat) : Node
  | comp (k : NodeKind) (children : List Nat) : Node
deriving DecidableEq, Repr

/-- The children references of a heap cell. -/
def nodeChildren : Node → List Nat
  | .comp _ es => es
  | _ => []

/-- A Python object graph: a heap plus the index of the root object.
Well-formed graphs (`wfG`) only refer downwards, so index order is a
topological order of the object graph. -/
structure PyGraph where
  heap : List Node
  root : Nat
deriving DecidableEq, Repr

/-- The unfolding of an object graph into a pure tree: what the value
"looks like" to Python's `==`, with all sharing forgotten. -/
inductive PyTree where
  | atom (a : PyScalar) : PyTree
  | func (name : Nat) : PyTree
  | hooked (name : Nat) : PyTree
  | comp (k : NodeKind) (children : List PyTree) : PyTree
deriving Repr

/-- Fuel-driven unfolding of heap index `i` into a tree.  References that
do not point strictly downwards unfold to a junk leaf; for well-formed
heaps and fuel `> i` the guards never fire. -/
def toTreeN : Nat → List Node → Nat → PyTree
  | 0, _, _ => .atom .pnone
  | b + 1, h, i =>
    match h[i]? with
    | some (.atom a) => .atom a
    | some (.func f) => .func f
    | some (.hooked f) => .hooked f
    | some (.comp k es) =>
        .comp k (es.map (fun j => if j < i then toTreeN b h j else .atom .pnone))
    | none => .atom .pnone

/-- Canonical unfolding of heap index `i` (fuel `i + 1` always suffices
because references only point downwards). -/
def toTree (h : List Node) (i : Nat) : PyTree := toTreeN (i + 1) h i

/-- The tree denotation of a graph; Python's `==` on two graphs is
equality of their `treeOf`s. -/
def treeOf (g : PyGraph) : PyTree := toTree g.heap g.root

/-- Heap well-formedness: every reference points strictly downwards. -/
def wfHeap (h : List Node) : Bool :=
  (List.range h.length).all (fun i =>
    match h[i]? with
    | some nd => (nodeChildren nd).all (fun j => decide (j < i))
    | none => true)

/-- Graph well-formedness: well-formed heap and in-range root. -/
def wfG (g : PyGraph) : Bool :=
  wfHeap g.heap && decide (g.root < g.heap.length)

/-- First index of `a` in `l` (`l.length` if absent); the model of the
position of an object in pickle's memo table. -/
def idxOf : List Nat → Nat → Nat
  | [], _ => 0
  | x :: xs, a => if x = a then 0 else idxOf xs a + 1

/-- Thread a state through a list, collecting one result per element.
Used for serializing / deep-copying the children of a compound node. -/
def mapAccum {α σ : Type} (f : Nat → σ → α × σ) : List Nat → σ → List α × σ
  | [], s => ([], s)
  | j :: es, s =>
    let r1 := f j s
    let r2 := mapAccum f es r1.2
    (r1.1 :: r2.1, r2.2)

/-- Numeric opcode of each compound kind in the modelled pickle stream. -/
def kindCode : NodeKind → Nat
  | .tuple => 0
  | .list => 1
  | .dict => 2
  | .set => 3
  | .wrapper => 4

/-- Partial inverse of `kindCode`. -/
def decodeKind : Nat → Option NodeKind
  | 0 => some .tuple
  | 1 => some .list
  | 2 => some .dict
  | 3 => some .set
  | 4 => some .wrapper
  | _ => none

/-- Fuel-driven model of pickle's `save` routine on heap index `i`.
`memo` is the memo table: the heap indices already written, in order of
memoization.  A node found in the memo is emitted as a back-reference
`[7, position]`; a compound node is written as header plus children and
then memoized (post-order, as for pickle's `TUPLE`); scalars and
by-reference objects are written inline.  Returns the byte stream and the
extended memo. -/
def pdumpN : Nat → List Node → Nat → List Nat → List Nat × List Nat
  | 0, _, _, m => ([], m)
  | b + 1, h, i, m =>
    if i ∈ m then ([7, idxOf m i], m)
    else
      match h[i]? with
      | some (.atom .pnone) => ([0], m)
      | some (.atom (.pbool bo)) => ([1, if bo then 1 else 0], m)
      | some (.atom (.pint n)) => ([2, if n < 0 then 1 else 0, n.natAbs], m)
      | some (.atom (.pstr cs)) => ([3, cs.length] ++ cs, m)
      | some (.func f) => ([4, f], m)
      | some (.hooked f) => ([5, f], m)
      | some (.comp k es) =>
          let r := mapAccum (fun j mm => if j < i then pdumpN b h j mm else ([], mm)) es m
          ([6, kindCode k, es.length] ++ r.1.flatten, r.2 ++ [i])
      | none => ([], m)

/-- Canonical serialization of heap index `i` under memo `m`. -/
def pdump (h : List Node) (i : Nat) (m : List Nat) : List Nat × List Nat :=
  pdumpN (i + 1) h i m

/-- Serialization of a list of sibling nodes, threading the memo. -/
def pdumpList (h : List Node) : List Nat → List Nat → List Nat × List Nat
  | [], m => ([], m)
  | j :: es, m =>
    let r1 := pdump h j m
    let r2 := pdumpList h es r1.2
    (r1.1 ++ r2.1, r2.2)

/-- The model of `pickle.dumps(value, protocol=p)`: protocol header
followed by the serialized root. -/
def dumps (g : PyGraph) (protocol : Nat) : List Nat :=
  8 :: protocol :: (pdump g.heap g.root []).1

/-- Parse `n` consecutive items with parser `p`, threading stream and
memo. -/
def parseItems (p : List Nat → List PyTree → Option (PyTree × List Nat × List PyTree)) :
    Nat → List Nat → List PyTree → Option (List PyTree × List Nat × List PyTree)
  | 0, bs, memo => some ([], bs, memo)
  | n + 1, bs, memo =>
    match p bs memo with
    | some (t, bs1, memo1) =>
        match parseItems p n bs1 memo1 with
        | some (ts, bs2, memo2) => some (t :: ts, bs2, memo2)
        | none => none
    | none => none

/-- Fuel-driven model of pickle's `load` loop: parses one value off the
front of the stream, maintaining the memo of already-reconstructed
values; any malformed input fails, modelling `UnpicklingError` and
friends.  `fuel` bounds the nesting depth. -/
def ploadN : Nat → List Nat → List PyTree → Option (PyTree × List Nat × List PyTree)
  | 0, _, _ => none
  | fuel + 1, bs, memo =>
    match bs with
    | 0 :: r => some (.atom .pnone, r, memo)
    | 1 :: b :: r =>
        if b = 0 then some (.atom (.pbool false), r, memo)
        else if b = 1 then some (.atom (.pbool true), r, memo)
        else none
    | 2 :: sg :: a :: r =>
        if sg = 0 then some (.atom (.pint (a : Int)), r, memo)
        else if sg = 1 then some (.atom (.pint (-(a : Int))), r, memo)
        else none
    | 3 :: len :: r =>
        if len ≤ r.length then some (.atom (.pstr (r.take len)), r.drop len, memo)
        else none
    | 4 :: f :: r => some (.func f, r, memo)
    | 5 :: f :: r => some (.hooked f, r, memo)
    | 6 :: kc :: n :: r =>
        match decodeKind kc with
        | some k =>
            match parseItems (ploadN fuel) n r memo with
            | some (ts, r1, memo1) => some (.comp k ts, r1, memo1 ++ [.comp k ts])
            | none => none
        | none => none
    | 7 :: j :: r =>
        match memo[j]? with
        | some t => some (t, r, memo)
        | none => none
    | _ => none

/-- The model of `pickle.loads`: check the protocol header, then parse
one value (trailing bytes are ignored, as pickle stops at its `STOP`
opcode).  `body.length + 1` fuel dominates any possible nesting depth. -/
def loads (bs : List Nat) : Option PyTree :=
  match bs with
  | 8 :: _ :: body =>
      match ploadN (body.length + 1) body [] with
      | some (t, _, _) => some t
      | none => none
  | _ => none

/-- The model of `zlib.compress`: injective, prepends the zlib header
byte. -/
def zcompress (bs : List Nat) : List Nat := 120 :: bs

/-- The model of `zlib.decompress`: fails unless the stream carries the
compression header. -/
def zdecompress : List Nat → Option (List Nat)
  | 120 :: r => some r
  | _ => none

/-- The model of `base64.b64encode(..).decode()`: an injective text-safe
recoding of the byte stream (symbol `0` never occurs in its image). -/
def b64encode (bs : List Nat) : List Nat := bs.map (fun b => b + 1)

/-- The model of `base64.b64decode`: fails on any stream containing the
invalid symbol `0`. -/
def b64decode (cs : List Nat) : Option (List Nat) :=
  if cs.all (fun c => decide (0 < c)) then some (cs.map (fun c => c - 1)) else none

/-- Deep-copy state: the heap built so far plus the memo mapping
already-copied old indices to their copies. -/
def lookupMemo : List (Nat × Nat) → Nat → Option Nat
  | [], _ => none
  | p :: ms, i => if p.1 = i then some p.2 else lookupMemo ms i

/-- Fuel-driven model of `copy.deepcopy` on heap index `i`: children are
copied first (through the memo, so internal sharing — the reference
topology — is preserved exactly as `deepcopy`'s memo dict preserves it),
then the node itself is appended to the new heap and memoized.  Scalars
are duplicated instead of shared, which is indistinguishable to the
serializer since it does not memoize scalars. -/
def dcopyN : Nat → List Node → Nat → List Node × List (Nat × Nat) →
    Nat × (List Node × List (Nat × Nat))
  | 0, _, _, st => (0, st)
  | b + 1, h, i, st =>
    match lookupMemo st.2 i with
    | some n => (n, st)
    | none =>
      match h[i]? with
      | some (.comp k es) =>
          let r := mapAccum (fun j s => if j < i then dcopyN b h j s else (0, s)) es st
          (r.2.1.length, (r.2.1 ++ [.comp k r.1], r.2.2 ++ [(i, r.2.1.length)]))
      | some nd => (st.1.length, (st.1 ++ [nd], st.2))
      | none => (st.1.length, (st.1 ++ [.atom .pnone], st.2))

/-- Canonical deep copy of heap index `i`. -/
def dcopy (h : List Node) (i : Nat) (st : List Node × List (Nat × Nat)) :
    Nat × (List Node × List (Nat × Nat)) :=
  dcopyN (i + 1) h i st

/-- Deep copy of a list of sibling nodes, threading the state. -/
def dcopyList (h : List Node) : List Nat → List Node × List (Nat × Nat) →
    List Nat × (List Node × List (Nat × Nat))
  | [], st => ([], st)
  | j :: es, st =>
    let r1 := dcopy h j st
    let r2 := dcopyList h es r1.2
    (r1.1 :: r2.1, r2.2)

/-- `copy.deepcopy` of a whole graph: a freshly numbered copy of the
reachable part, with the original's internal sharing preserved. -/
def deepcopyG (g : PyGraph) : PyGraph :=
  let r := dcopy g.heap g.root ([], [])
  ⟨r.2.1, r.1⟩

/-- A Python string value as held by the field: its text plus whether it
is an instance of the module's `str` subclass `PickledObject` (the tag
asserting "this text was produced by `dbsafe_encode`"). -/
structure PyStr where
  text : List Nat
  tagged : Bool
deriving DecidableEq, Repr

/-- `picklefield/fields.py` line 54, `dbsafe_encode`: optionally deep
copy (the work-around keeping equal lookup values byte-identical), then
pickle with the pinned protocol, optionally compress, base64-encode, and
tag the result as a `PickledObject`. -/
def dbsafe_encode (value : PyGraph) (compress_object : Bool := false)
    (pickle_protocol : Nat := 2) (copy : Bool := true) : PyStr :=
  let value := if copy then deepcopyG value else value
  let bs := dumps value pickle_protocol
  let bs := if compress_object then zcompress bs else bs
  ⟨b64encode bs, true⟩

/-- `picklefield/fields.py` line 72, `dbsafe_decode`: base64-decode,
optionally decompress, unpickle; any stage can fail (`none`), the model
of the exceptions `to_python` catches. -/
def dbsafe_decode (value : PyStr) (compress_object : Bool := false) : Option PyTree :=
  match b64decode value.text with
  | none => none
  | some bs =>
    match (if compress_object then zdecompress bs else some bs) with
    | none => none
    | some bs => loads bs

/-- A Python value as it reaches the field hooks: `None`, a string
(possibly the tagged `PickledObject` subclass), or any other object,
given as its object graph. -/
inductive PyVal where
  | vnone : PyVal
  | vstr (s : PyStr) : PyVal
  | vobj (g : PyGraph) : PyVal
deriving DecidableEq, Repr

/-- The object graph of a plain Python string value (used when
`get_db_prep_value` pickles a raw, untagged string). -/
def strGraph (s : PyStr) : PyGraph := ⟨[.atom (.pstr s.text)], 0⟩

/-- `hasattr(obj, 'prepare_database_save') or callable(obj)` — the test
`wrap_conflictual_object` applies.  Only `func` (callable) and `hooked`
(carries the reserved attribute) roots satisfy it; `None`, strings and
plain containers do not. -/
def conflictual (g : PyGraph) : Bool :=
  match g.heap[g.root]? with
  | some (.func _) => true
  | some (.hooked _) => true
  | _ => false

/-- The graph of `_ObjectWrapper(value)`: a fresh one-slot wrapper node
on top of the value's root. -/
def wrapG (g : PyGraph) : PyGraph :=
  ⟨g.heap ++ [.comp .wrapper [g.root]], g.heap.length⟩

/-- `picklefield/fields.py` line 48, `wrap_conflictual_object`: wrap
values whose shape collides with ORM internals (callables, objects with
`prepare_database_save`) in `_ObjectWrapper`; leave everything else
untouched. -/
def wrap_conflictual_object (value : PyVal) : PyVal :=
  match value with
  | .vobj g => if conflictual g then .vobj (wrapG g) else value
  | _ => value

/-- `Modelled from the spec:` the repository's `constants.py`
(`DEFAULT_PROTOCOL`) is not part of the source tree here; `fields.py`
line 11 imports it.  Spec §6: "protocol: integer (default = a fixed
constant, overridable process-wide) — serialization format version". -/
def DEFAULT_PROTOCOL : Nat := 2

/-- The declared `default` of a field: absent, a static (non-callable)
value, or a zero-argument callable.  A callable is modelled by the
sequence of values produced by its successive invocations (`f n` is what
the `n`-th call returns), so that caching versus fresh invocation is
observable. -/
inductive DefaultDecl where
  | dnone : DefaultDecl
  | dstatic (v : PyVal) : DefaultDecl
  | dcallable (f : Nat → PyVal) : DefaultDecl

/-- The per-column configuration fixed at declaration time
(`picklefield/fields.py` lines 91-95): `compress`, `protocol`, `copy`
and the declared default. -/
structure FieldCfg where
  compress : Bool
  protocol : Nat
  copy : Bool
  default : DefaultDecl

/-- `models.Field.get_default` for a field with no declared default
returns the empty string (text fields allow empty strings); the model of
the `super().get_default()` punt on line 115. -/
def superGetDefault : PyVal := .vstr ⟨[], false⟩

/-- `picklefield/fields.py` line 98, `get_default`: if a default was
declared and is callable, call it (each invocation is a fresh
application — nothing is memoized); otherwise return the declared value
as-is.  In neither case is the codec applied.  Without a default the
field punts to `models.Field`. -/
def get_default (cfg : FieldCfg) (invocation : Nat) : PyVal :=
  match cfg.default with
  | .dcallable f => f invocation
  | .dstatic v => v
  | .dnone => superGetDefault

/-- The error `to_python` re-raises for corrupted tagged blobs. -/
inductive DecodeError where
  | decodeError : DecodeError
deriving DecidableEq, Repr

/-- The value `to_python` hands back: `None`, a decoded in-memory object,
or the original text unchanged (the untagged-fallback path). -/
inductive ReadResult where
  | rnone : ReadResult
  | robj (t : PyTree) : ReadResult
  | rraw (s : PyStr) : ReadResult
deriving Repr

/-- `isinstance(value, _ObjectWrapper)` / `value._obj` on a decoded
value: a decoded `_ObjectWrapper` (always one slot when produced by the
codec) is unwrapped to its payload. -/
def unwrapTree : PyTree → PyTree
  | .comp .wrapper [x] => x
  | t => t

/-- `picklefield/fields.py` line 117, `to_python`: `None` passes through;
otherwise attempt `dbsafe_decode`.  On success a decoded
`_ObjectWrapper` is unwrapped, any other decoded value is returned.  On
failure the error propagates only if the input was a definite pickle
(a `PickledObject` instance); otherwise the original string is returned
unchanged.  The hook is modelled on the stored-text inputs the claims
are about (`None` or a string). -/
def to_python (cfg : FieldCfg) (value : Option PyStr) : Except DecodeError ReadResult :=
  match value with
  | none => .ok .rnone
  | some s =>
    match dbsafe_decode s cfg.compress with
    | some t => .ok (.robj (unwrapTree t))
    | none => if s.tagged then .error .decodeError else .ok (.rraw s)

/-- `picklefield/fields.py` line 140, `pre_save`: take the instance's
value (`super().pre_save` returns the attribute, modelled as the given
value) and apply `wrap_conflictual_object` — the write path wraps, it
does not encode. -/
def pre_save (value : PyVal) : PyVal :=
  wrap_conflictual_object value

/-- `django.utils.encoding.force_text` on a `str` instance returns it
unchanged (str subclasses included). -/
def force_text (s : PyStr) : PyStr := s

/-- `picklefield/fields.py` line 151, `get_db_prep_value`: `None` and
already-tagged `PickledObject`s pass through; any other value (raw
strings included) is encoded with the field's pinned settings. -/
def get_db_prep_value (cfg : FieldCfg) (value : PyVal) : PyVal :=
  match value with
  | .vnone => .vnone
  | .vstr s =>
      if s.tagged then .vstr s
      else .vstr (force_text (dbsafe_encode (strGraph s) cfg.compress cfg.protocol cfg.copy))
  | .vobj g => .vstr (force_text (dbsafe_encode g cfg.compress cfg.protocol cfg.copy))

/-- The field's preparation of a right-hand-side lookup value:
`fields.py` overrides no lookup-value hook, so the host ORM passes the
comparison value unchanged into `get_db_prep_value` (the test suite
applies `wrap_conflictual_object` to lookup values manually before
filtering). -/
def prepare_lookup_value (value : PyVal) : PyVal := value

/-- `picklefield/fields.py` line 179, `get_lookup`: only `exact`, `in`
and `isnull` are permitted; any other lookup name raises
`TypeError('Lookup type %s is not supported.' % lookup_name)`.  The
success case defers to `models.Field.get_lookup`, modelled as resolving
the requested name. -/
def get_lookup (lookup_name : String) : Except String String :=
  if lookup_name ∉ ["exact", "in", "isnull"] then
    .error ("Lookup type " ++ lookup_name ++ " is not supported.")
  else .ok lookup_name

/-- A diagnostic produced by the declaration-time system checks. -/
structure CheckMessage where
  id : String
  msg : String
deriving DecidableEq, Repr

/-- The mutable-default warning the tests expect (`tests/tests.py`,
`test_mutable_default_check`, id `picklefield.E001`). -/
def mutable_default_warning : CheckMessage :=
  ⟨"picklefield.E001",
   "PickledObjectField default should be a callable instead of a mutable instance so that it's not shared between all field instances."⟩

/-- `isinstance(default, (list, dict, set))` on a declared static
default value. -/
def isMutableDefault (v : PyVal) : Bool :=
  match v with
  | .vobj g =>
      match g.heap[g.root]? with
      | some (.comp .list _) => true
      | some (.comp .dict _) => true
      | some (.comp .set _) => true
      | _ => false
  | _ => false

/-- `Modelled from the spec:` the declaration-time check on mutable
defaults (`_check_default`) is not part of the source tree here — only
`tests/tests.py` (`test_mutable_default_check`) exercises it.  Spec §6:
"warn if `default` is a mutable literal (list/mapping/set) rather than a
callable ... this is a reported diagnostic, not a runtime error."  The
check returns a list of warnings (one when the static default is a
list/dict/set, none otherwise) instead of raising. -/
def check_default (cfg : FieldCfg) : List CheckMessage :=
  match cfg.default with
  | .dstatic v => if isMutableDefault v then [mutable_default_warning] else []
  | _ => []

/-- The invariant maintained while deep-copying: the new heap is
well-formed and every memoized pair maps an old index to a copy with the
same unfolding. -/
def dcopyInv (h : List Node) (st : List Node × List (Nat × Nat)) : Prop :=
  wfHeap st.1 = true ∧ ∀ p ∈ st.2, p.2 < st.1.length ∧ toTree st.1 p.2 = toTree h p.1

/-! ### Concrete values used to instantiate the claims

`exGraphShared` is Python's `t = [1]; a = (t, t)`: one list shared by
both slots.  `exGraphUnshared` is `b = ([1], [1])`: two separately
constructed equal lists.  `a == b` holds in Python, yet their pickles
differ because the second slot of `a` is a memo back-reference. -/

/-- `t = [1]; a = (t, t)` — a tuple sharing one list in both slots. -/
def exGraphShared : PyGraph :=
  ⟨[.atom (.pint 1), .comp .list [0], .comp .tuple [1, 1]], 2⟩

/-- `b = ([1], [1])` — the `==`-equal tuple with two unshared lists. -/
def exGraphUnshared : PyGraph :=
  ⟨[.atom (.pint 1), .comp .list [0], .atom (.pint 1), .comp .list [2],
    .comp .tuple [1, 3]], 4⟩

/-- `exGraphShared` with an extra unreachable heap cell: a distinct
in-memory state with the identical reachable object graph. -/
def exGraphSharedExtra : PyGraph :=
  ⟨[.atom (.pint 1), .comp .list [0], .comp .tuple [1, 1], .atom (.pint 99)], 2⟩

/-- A callable value (e.g. `date.today`), pickled by reference. -/
def exFuncGraph : PyGraph := ⟨[.func 7], 0⟩

/-- The plain value `5`. -/
def exIntGraph : PyGraph := ⟨[.atom (.pint 5)], 0⟩

/-- The mutable literal `[]` used as a field default. -/
def exListGraph : PyGraph := ⟨[.comp .list []], 0⟩

/-- A nested plain value in the spirit of the spec's scenario
`({1: 2, 2: 1}, "hi", (1, 2, "hi"), [1, 1])` bundled in a tuple. -/
def exValueGraph : PyGraph :=
  ⟨[.atom (.pint 1), .atom (.pint 2), .atom (.pstr [104, 105]),
    .comp .dict [0, 1, 1, 0], .comp .tuple [0, 1, 2], .comp .list [0, 0],
    .comp .tuple [3, 2, 4, 5]], 6⟩

/-- A `PickledObject`-tagged text that is not valid codec output (its
single symbol is rejected by the base64 decoder) — a corrupted blob. -/
def exCorruptTagged : PyStr := ⟨[0], true⟩

/-- An *untagged* plain string whose text happens to be byte-identical
to valid codec output for the value `5`. -/
def exBlobUntagged : PyStr := ⟨(dbsafe_encode exIntGraph false 2 true).text, false⟩

/-- A fixed field configuration: no compression, protocol 2, defensive
copy on, no default. -/
def cfg0 : FieldCfg := ⟨false, DEFAULT_PROTOCOL, true, .dnone⟩

/-! ## Basic lemmas about the helpers -/

theorem idxOf_map_getElem {f : Nat → PyTree} :
    ∀ (m : List Nat) (i : Nat), i ∈ m → (m.map f)[idxOf m i]? = some (f i) := by
  intro m
  induction m with
  | nil => intro i hi; cases hi
  | cons x xs ih =>
    intro i hi
    by_cases hx : x = i
    · subst hx
      simp [idxOf]
    · have hmem : i ∈ xs := by
        rcases List.mem_cons.mp hi with h | h
        · exact absurd h.symm hx
        · exact h
      simp only [idxOf, if_neg hx, List.map_cons]
      simpa using ih i hmem

theorem mapAccum_congr {α σ : Type} {f g : Nat → σ → α × σ} :
    ∀ (es : List Nat), (∀ j ∈ es, ∀ s, f j s = g j s) →
      ∀ s, mapAccum f es s = mapAccum g es s := by
  intro es
  induction es with
  | nil => intro _ s; rfl
  | cons j es ih =>
    intro hfg s
    simp only [mapAccum]
    rw [hfg j (List.mem_cons_self j es) s,
      ih (fun j' hj' s' => hfg j' (List.mem_cons_of_mem j hj') s')]

theorem wfHeap_children {h : List Node} {i j : Nat} {nd : Node}
    (hw : wfHeap h = true) (hg : h[i]? = some nd) (hj : j ∈ nodeChildren nd) :
    j < i := by
  have hi : i < h.length := by
    rcases List.getElem?_eq_some.mp hg with ⟨hlt, _⟩
    exact hlt
  have h1 := (List.all_eq_true.mp hw) i (List.mem_range.mpr hi)
  rw [hg] at h1
  have h2 := (List.all_eq_true.mp h1) j hj
  exact of_decide_eq_true h2

/-! ## Fuel irrelevance and one-step unfolding for `toTree` -/

theorem toTreeN_irrel :
    ∀ (b b' : Nat) (h : List Node) (i : Nat), i < b → i < b' →
      toTreeN b h i = toTreeN b' h i := by
  intro b
  induction b with
  | zero => intro b' h i hi; omega
  | succ b ih =>
    intro b' h i hib hib'
    match b', hib' with
    | b' + 1, _ =>
      show toTreeN (b + 1) h i = toTreeN (b' + 1) h i
      cases hg : h[i]? with
      | none => simp [toTreeN, hg]
      | some nd =>
        cases nd with
        | atom a => simp [toTreeN, hg]
        | func f => simp [toTreeN, hg]
        | hooked f => simp [toTreeN, hg]
        | comp k es =>
          simp only [toTreeN, hg]
          congr 1
          apply List.map_congr_left
          intro j _
          by_cases hj : j < i
          · simp only [if_pos hj]
            exact ih b' h j (by omega) (by omega)
          · simp [if_neg hj]

theorem toTree_atom {h : List Node} {i : Nat} {a : PyScalar}
    (hg : h[i]? = some (.atom a)) : toTree h i = .atom a := by
  simp [toTree, toTreeN, hg]

theorem toTree_func {h : List Node} {i f : Nat}
    (hg : h[i]? = some (.func f)) : toTree h i = .func f := by
  simp [toTree, toTreeN, hg]

theorem toTree_hooked {h : List Node} {i f : Nat}
    (hg : h[i]? = some (.hooked f)) : toTree h i = .hooked f := by
  simp [toTree, toTreeN, hg]

theorem toTree_comp {h : List Node} {i : Nat} {k : NodeKind} {es : List Nat}
    (hg : h[i]? = some (.comp k es)) (hlt : ∀ j ∈ es, j < i) :
    toTree h i = .comp k (es.map (toTree h)) := by
  simp only [toTree, toTreeN, hg]
  congr 1
  apply List.map_congr_left
  intro j hj
  simp only [if_pos (hlt j hj)]
  exact toTreeN_irrel i (j + 1) h j (hlt j hj) (Nat.lt_succ_self j)

theorem toTree_none {h : List Node} {i : Nat}
    (hg : h[i]? = none) : toTree h i = .atom .pnone := by
  simp [toTree, toTreeN, hg]

theorem toTreeN_append {E : List Node} :
    ∀ (b : Nat) (h : List Node) (i : Nat), i < h.length →
      toTreeN b (h ++ E) i = toTreeN b h i := by
  intro b
  induction b with
  | zero => intro h i _; rfl
  | succ b ih =>
    intro h i hi
    cases hg : h[i]? with
    | none => simp [toTreeN, List.getElem?_append_left hi, hg]
    | some nd =>
      cases nd with
      | atom a => simp [toTreeN, List.getElem?_append_left hi, hg]
      | func f => simp [toTreeN, List.getElem?_append_left hi, hg]
      | hooked f => simp [toTreeN, List.getElem?_append_left hi, hg]
      | comp k es =>
        simp only [toTreeN, List.getElem?_append_left hi, hg]
        congr 1
        apply List.map_congr_left
        intro j _
        by_cases hj : j < i
        · simp only [if_pos hj]
          exact ih h j (by omega)
        · simp [if_neg hj]

theorem toTree_append {E h : List Node} {i : Nat} (hi : i < h.length) :
    toTree (h ++ E) i = toTree h i :=
  toTreeN_append (i + 1) h i hi

/-! ## Fuel irrelevance and one-step unfolding for `pdump` -/

theorem pdumpN_irrel :
    ∀ (b b' : Nat) (h : List Node) (i : Nat) (m : List Nat), i < b → i < b' →
      pdumpN b h i m = pdumpN b' h i m := by
  intro b
  induction b with
  | zero => intro b' h i m hi; omega
  | succ b ih =>
    intro b' h i m hib hib'
    match b', hib' with
    | b' + 1, _ =>
      show pdumpN (b + 1) h i m = pdumpN (b' + 1) h i m
      by_cases hm : i ∈ m
      · simp [pdumpN, hm]
      · cases hg : h[i]? with
        | none => simp [pdumpN, hm, hg]
        | some nd =>
          cases nd with
          | atom a => cases a <;> simp [pdumpN, hm, hg]
          | func f => simp [pdumpN, hm, hg]
          | hooked f => simp [pdumpN, hm, hg]
          | comp k es =>
            simp only [pdumpN, if_neg hm, hg]
            have hmap :
                mapAccum (fun j mm => if j < i then pdumpN b h j mm else ([], mm)) es m =
                mapAccum (fun j mm => if j < i then pdumpN b' h j mm else ([], mm)) es m := by
              apply mapAccum_congr
              intro j _ s
              by_cases hj : j < i
              · simp only [if_pos hj]
                exact ih b' h j s (by omega) (by omega)
              · simp [if_neg hj]
            rw [hmap]

theorem pdump_mem {h : List Node} {i : Nat} {m : List Nat} (hm : i ∈ m) :
    pdump h i m = ([7, idxOf m i], m) := by
  simp [pdump, pdumpN, hm]

theorem pdump_pnone {h : List Node} {i : Nat} {m : List Nat}
    (hm : i ∉ m) (hg : h[i]? = some (.atom .pnone)) :
    pdump h i m = ([0], m) := by
  simp [pdump, pdumpN, hm, hg]

theorem pdump_pbool {h : List Node} {i : Nat} {m : List Nat} {bo : Bool}
    (hm : i ∉ m) (hg : h[i]? = some (.atom (.pbool bo))) :
    pdump h i m = ([1, if bo then 1 else 0], m) := by
  simp [pdump, pdumpN, hm, hg]

theorem pdump_pint {h : List Node} {i : Nat} {m : List Nat} {n : Int}
    (hm : i ∉ m) (hg : h[i]? = some (.atom (.pint n))) :
    pdump h i m = ([2, if n < 0 then 1 else 0, n.natAbs], m) := by
  simp [pdump, pdumpN, hm, hg]

theorem pdump_pstr {h : List Node} {i : Nat} {m : List Nat} {cs : List Nat}
    (hm : i ∉ m) (hg : h[i]? = some (.atom (.pstr cs))) :
    pdump h i m = ([3, cs.length] ++ cs, m) := by
  simp [pdump, pdumpN, hm, hg]

theorem pdump_func {h : List Node} {i f : Nat} {m : List Nat}
    (hm : i ∉ m) (hg : h[i]? = some (.func f)) :
    pdump h i m = ([4, f], m) := by
  simp [pdump, pdumpN, hm, hg]

theorem pdump_hooked {h : List Node} {i f : Nat} {m : List Nat}
    (hm : i ∉ m) (hg : h[i]? = some (.hooked f)) :
    pdump h i m = ([5, f], m) := by
  simp [pdump, pdumpN, hm, hg]

theorem mapAccum_pdumpList {h : List Node} {i b : Nat} :
    ∀ (es : List Nat), (∀ j ∈ es, j < i) → (∀ j ∈ es, j < b) → ∀ (m : List Nat),
      ((mapAccum (fun j mm => if j < i then pdumpN b h j mm else ([], mm)) es m).1.flatten,
       (mapAccum (fun j mm => if j < i then pdumpN b h j mm else ([], mm)) es m).2) =
      pdumpList h es m := by
  intro es
  induction es with
  | nil => intro _ _ m; rfl
  | cons j es ih =>
    intro hlt hb m
    have hj : j < i := hlt j (List.mem_cons_self j es)
    have hjb : j < b := hb j (List.mem_cons_self j es)
    simp only [mapAccum, pdumpList, if_pos hj]
    have hcan : pdumpN b h j m = pdump h j m :=
      pdumpN_irrel b (j + 1) h j m hjb (Nat.lt_succ_self j)
    rw [hcan]
    have ih' := ih (fun j' hj' => hlt j' (List.mem_cons_of_mem j hj'))
      (fun j' hj' => hb j' (List.mem_cons_of_mem j hj')) (pdump h j m).2
    simp only [List.flatten_cons]
    rw [← ih']

theorem pdump_comp {h : List Node} {i : Nat} {m : List Nat} {k : NodeKind} {es : List Nat}
    (hm : i ∉ m) (hg : h[i]? = some (.comp k es)) (hlt : ∀ j ∈ es, j < i) :
    pdump h i m =
      ([6, kindCode k, es.length] ++ (pdumpList h es m).1, (pdumpList h es m).2 ++ [i]) := by
  simp only [pdump, pdumpN, if_neg hm, hg]
  have hb : ∀ j ∈ es, j < i := hlt
  rw [← mapAccum_pdumpList es hlt hb m]

/-! ## The serializer round-trip: `ploadN` is a left inverse of `pdump`

The loader's memo is maintained as the image, under `toTree h`, of the
dumper's memo, so back-references resolve to the trees of the nodes they
point at. -/

theorem decodeKind_kindCode (k : NodeKind) : decodeKind (kindCode k) = some k := by
  cases k <;> rfl

theorem parse_pdumpList {h : List Node} {i : Nat}
    (IH : ∀ j, j < i → j < h.length → ∀ (m rest : List Nat) (f : Nat),
      (pdump h j m).1.length + 1 ≤ f →
      ploadN f ((pdump h j m).1 ++ rest) (m.map (toTree h)) =
        some (toTree h j, rest, ((pdump h j m).2).map (toTree h))) :
    ∀ (es : List Nat), (∀ j ∈ es, j < i ∧ j < h.length) →
      ∀ (m rest : List Nat) (f : Nat),
        (pdumpList h es m).1.length + 1 ≤ f →
        parseItems (ploadN f) es.length ((pdumpList h es m).1 ++ rest) (m.map (toTree h)) =
          some (es.map (toTree h), rest, ((pdumpList h es m).2).map (toTree h)) := by
  intro es
  induction es with
  | nil =>
    intro _ m rest f _
    simp [pdumpList, parseItems]
  | cons j es ih =>
    intro hes m rest f hf
    have hj := hes j (List.mem_cons_self j es)
    have hes' : ∀ j' ∈ es, j' < i ∧ j' < h.length :=
      fun j' hj' => hes j' (List.mem_cons_of_mem j hj')
    simp only [pdumpList] at hf ⊢
    rw [List.length_append] at hf
    have h1 := IH j hj.1 hj.2 m ((pdumpList h es (pdump h j m).2).1 ++ rest) f (by omega)
    have h2 := ih hes' (pdump h j m).2 rest f (by omega)
    simp only [List.length_cons, parseItems, List.append_assoc, h1, h2, List.map_cons]

theorem pdump_pload {h : List Node} (hw : wfHeap h = true) :
    ∀ (i : Nat), i < h.length → ∀ (m rest : List Nat) (f : Nat),
      (pdump h i m).1.length + 1 ≤ f →
      ploadN f ((pdump h i m).1 ++ rest) (m.map (toTree h)) =
        some (toTree h i, rest, ((pdump h i m).2).map (toTree h)) := by
  intro i
  induction i using Nat.strong_induction_on with
  | _ i IH =>
    intro hi m rest f hf
    by_cases hm : i ∈ m
    · rw [pdump_mem hm] at hf ⊢
      obtain ⟨f', rfl⟩ : ∃ f', f = f' + 1 := ⟨f - 1, by omega⟩
      simp [ploadN, idxOf_map_getElem m i hm]
    · cases hg : h[i]? with
      | none =>
        exfalso
        rw [List.getElem?_eq_none_iff] at hg
        omega
      | some nd =>
        cases nd with
        | atom a =>
          cases a with
          | pnone =>
            rw [pdump_pnone hm hg] at hf ⊢
            obtain ⟨f', rfl⟩ : ∃ f', f = f' + 1 := ⟨f - 1, by omega⟩
            simp [ploadN, toTree_atom hg]
          | pbool bo =>
            rw [pdump_pbool hm hg] at hf ⊢
            obtain ⟨f', rfl⟩ : ∃ f', f = f' + 1 := ⟨f - 1, by omega⟩
            cases bo <;> simp [ploadN, toTree_atom hg]
          | pint n =>
            rw [pdump_pint hm hg] at hf ⊢
            obtain ⟨f', rfl⟩ : ∃ f', f = f' + 1 := ⟨f - 1, by omega⟩
            by_cases hn : n < 0
            · rw [if_pos hn, toTree_atom hg]
              have hAbs : -((n.natAbs : Int)) = n := by omega
              have hAbs2 : -|n| = n := by rw [abs_of_neg hn, neg_neg]
              simp [ploadN, hAbs, hAbs2]
            · rw [if_neg hn, toTree_atom hg]
              have hAbs : ((n.natAbs : Int)) = n := by omega
              have hAbs2 : |n| = n := abs_of_nonneg (by omega)
              simp [ploadN, hAbs, hAbs2]
          | pstr cs =>
            rw [pdump_pstr hm hg] at hf ⊢
            obtain ⟨f', rfl⟩ : ∃ f', f = f' + 1 := ⟨f - 1, by omega⟩
            have hle : cs.length ≤ (cs ++ rest).length := by
              rw [List.length_append]; omega
            simp only [List.cons_append, List.append_assoc, ploadN, hle, if_pos,
              List.take_left, List.drop_left]
            simp [toTree_atom hg]
        | func fn =>
          rw [pdump_func hm hg] at hf ⊢
          obtain ⟨f', rfl⟩ : ∃ f', f = f' + 1 := ⟨f - 1, by omega⟩
          simp [ploadN, toTree_func hg]
        | hooked fn =>
          rw [pdump_hooked hm hg] at hf ⊢
          obtain ⟨f', rfl⟩ : ∃ f', f = f' + 1 := ⟨f - 1, by omega⟩
          simp [ploadN, toTree_hooked hg]
        | comp k es =>
          have hlt : ∀ j ∈ es, j < i := fun j hj => wfHeap_children hw hg hj
          rw [pdump_comp hm hg hlt] at hf ⊢
          simp only [List.length_append, List.length_cons, List.length_nil] at hf
          obtain ⟨f', rfl⟩ : ∃ f', f = f' + 1 := ⟨f - 1, by omega⟩
          have hIH : ∀ j, j < i → j < h.length → ∀ (m' rest' : List Nat) (f'' : Nat),
              (pdump h j m').1.length + 1 ≤ f'' →
              ploadN f'' ((pdump h j m').1 ++ rest') (m'.map (toTree h)) =
                some (toTree h j, rest', ((pdump h j m').2).map (toTree h)) :=
            fun j hji hjl => IH j hji hjl
          have hitems := parse_pdumpList hIH es
            (fun j hj => ⟨hlt j hj, by have := hlt j hj; omega⟩) m rest f' (by omega)
          simp only [List.cons_append, List.nil_append, List.append_assoc, ploadN,
            decodeKind_kindCode]
          rw [hitems]
          simp [toTree_comp hg hlt, List.map_append]

theorem loads_dumps {g : PyGraph} (hw : wfG g = true) (p : Nat) :
    loads (dumps g p) = some (treeOf g) := by
  have hwh : wfHeap g.heap = true := by
    have := hw
    simp only [wfG, Bool.and_eq_true, decide_eq_true_eq] at this
    exact this.1
  have hr : g.root < g.heap.length := by
    have := hw
    simp only [wfG, Bool.and_eq_true, decide_eq_true_eq] at this
    exact this.2
  have h1 := pdump_pload hwh g.root hr [] [] ((pdump g.heap g.root []).1.length + 1)
    (Nat.le_refl _)
  rw [List.append_nil, List.map_nil] at h1
  simp only [dumps, loads, h1]
  rfl

theorem b64decode_encode (bs : List Nat) : b64decode (b64encode bs) = some bs := by
  have hall : (b64encode bs).all (fun c => decide (0 < c)) = true := by
    rw [List.all_eq_true]
    intro x hx
    rcases List.mem_map.mp hx with ⟨b, _, rfl⟩
    simp
  simp only [b64encode] at hall
  simp only [b64decode, b64encode, List.map_map, if_pos hall]
  congr 1
  have hmap : ∀ xs : List Nat, xs.map ((fun c => c - 1) ∘ fun b => b + 1) = xs := by
    intro xs
    induction xs with
    | nil => rfl
    | cons x xs ih => simp [ih]
  rw [hmap]

theorem zdecompress_compress (bs : List Nat) : zdecompress (zcompress bs) = some bs := rfl

/-! ## Deep copy: step lemmas -/

theorem lookupMemo_mem : ∀ {ms : List (Nat × Nat)} {i n : Nat},
    lookupMemo ms i = some n → (i, n) ∈ ms := by
  intro ms
  induction ms with
  | nil => intro i n hl; cases hl
  | cons p ms ih =>
    intro i n hl
    by_cases hp : p.1 = i
    · simp only [lookupMemo, if_pos hp] at hl
      cases hl
      subst hp
      simp
    · simp only [lookupMemo, if_neg hp] at hl
      exact List.mem_cons_of_mem p (ih hl)

theorem wfHeap_iff {h : List Node} :
    wfHeap h = true ↔ ∀ (i : Nat) (nd : Node), h[i]? = some nd → ∀ j ∈ nodeChildren nd, j < i := by
  constructor
  · intro hw i nd hg j hj
    exact wfHeap_children hw hg hj
  · intro hall
    rw [wfHeap, List.all_eq_true]
    intro i _
    cases hg : h[i]? with
    | none => rfl
    | some nd =>
      rw [List.all_eq_true]
      intro j hj
      exact decide_eq_true (hall i nd hg j hj)

theorem wfHeap_nil : wfHeap [] = true := rfl

theorem wfHeap_append {H : List Node} {nd : Node}
    (hw : wfHeap H = true) (hc : ∀ j ∈ nodeChildren nd, j < H.length) :
    wfHeap (H ++ [nd]) = true := by
  rw [wfHeap_iff]
  intro i nd' hg j hj
  by_cases hi : i < H.length
  · rw [List.getElem?_append_left hi] at hg
    exact wfHeap_children hw hg hj
  · have hlen : i < (H ++ [nd]).length := by
      rcases List.getElem?_eq_some.mp hg with ⟨hlt, _⟩
      exact hlt
    rw [List.length_append] at hlen
    have : i = H.length := by simp at hlen; omega
    subst this
    rw [List.getElem?_concat_length] at hg
    cases hg
    exact hc j hj

theorem dcopyN_irrel :
    ∀ (b b' : Nat) (h : List Node) (i : Nat) (st : List Node × List (Nat × Nat)),
      i < b → i < b' → dcopyN b h i st = dcopyN b' h i st := by
  intro b
  induction b with
  | zero => intro b' h i st hi; omega
  | succ b ih =>
    intro b' h i st hib hib'
    match b', hib' with
    | b' + 1, _ =>
      show dcopyN (b + 1) h i st = dcopyN (b' + 1) h i st
      cases hl : lookupMemo st.2 i with
      | some n => simp [dcopyN, hl]
      | none =>
        cases hg : h[i]? with
        | none => simp [dcopyN, hl, hg]
        | some nd =>
          cases nd with
          | atom a => simp [dcopyN, hl, hg]
          | func f => simp [dcopyN, hl, hg]
          | hooked f => simp [dcopyN, hl, hg]
          | comp k es =>
            simp only [dcopyN, hl, hg]
            have hmap :
                mapAccum (fun j s => if j < i then dcopyN b h j s else (0, s)) es st =
                mapAccum (fun j s => if j < i then dcopyN b' h j s else (0, s)) es st := by
              apply mapAccum_congr
              intro j _ s
              by_cases hj : j < i
              · simp only [if_pos hj]
                exact ih b' h j s (by omega) (by omega)
              · simp [if_neg hj]
            rw [hmap]

theorem dcopy_memo {h : List Node} {i n : Nat} {st : List Node × List (Nat × Nat)}
    (hl : lookupMemo st.2 i = some n) : dcopy h i st = (n, st) := by
  simp [dcopy, dcopyN, hl]

theorem dcopy_leaf {h : List Node} {i : Nat} {st : List Node × List (Nat × Nat)} {nd : Node}
    (hl : lookupMemo st.2 i = none) (hg : h[i]? = some nd)
    (hnc : ∀ (k : NodeKind) (es : List Nat), nd ≠ .comp k es) :
    dcopy h i st = (st.1.length, (st.1 ++ [nd], st.2)) := by
  cases nd with
  | atom a => simp [dcopy, dcopyN, hl, hg]
  | func f => simp [dcopy, dcopyN, hl, hg]
  | hooked f => simp [dcopy, dcopyN, hl, hg]
  | comp k es => exact absurd rfl (hnc k es)

theorem mapAccum_dcopyList {h : List Node} {i b : Nat} :
    ∀ (es : List Nat), (∀ j ∈ es, j < i) → (∀ j ∈ es, j < b) →
      ∀ (st : List Node × List (Nat × Nat)),
      mapAccum (fun j s => if j < i then dcopyN b h j s else (0, s)) es st =
        dcopyList h es st := by
  intro es
  induction es with
  | nil => intro _ _ st; rfl
  | cons j es ih =>
    intro hlt hb st
    have hj : j < i := hlt j (List.mem_cons_self j es)
    have hjb : j < b := hb j (List.mem_cons_self j es)
    simp only [mapAccum, dcopyList, if_pos hj]
    have hcan : dcopyN b h j st = dcopy h j st :=
      dcopyN_irrel b (j + 1) h j st hjb (Nat.lt_succ_self j)
    rw [hcan,
      ih (fun j' hj' => hlt j' (List.mem_cons_of_mem j hj'))
        (fun j' hj' => hb j' (List.mem_cons_of_mem j hj')) (dcopy h j st).2]

theorem dcopy_comp {h : List Node} {i : Nat} {st : List Node × List (Nat × Nat)}
    {k : NodeKind} {es : List Nat}
    (hl : lookupMemo st.2 i = none) (hg : h[i]? = some (.comp k es))
    (hlt : ∀ j ∈ es, j < i) :
    dcopy h i st =
      ((dcopyList h es st).2.1.length,
       ((dcopyList h es st).2.1 ++ [.comp k (dcopyList h es st).1],
        (dcopyList h es st).2.2 ++ [(i, (dcopyList h es st).2.1.length)])) := by
  simp only [dcopy, dcopyN, hl, hg]
  rw [mapAccum_dcopyList es hlt hlt st]

/-! ## Deep copy: correctness

`dcopy` extends heap and memo, keeps the invariant, and the copy unfolds
to the same tree as the original — i.e. `deepcopy` preserves the value
while rebuilding it on a fresh, canonically numbered heap. -/

theorem dcopyList_spec {h : List Node} {i : Nat}
    (IH : ∀ j, j < i → j < h.length → ∀ st, dcopyInv h st →
      (∃ E, (dcopy h j st).2.1 = st.1 ++ E) ∧
      (∃ F, (dcopy h j st).2.2 = st.2 ++ F) ∧
      (dcopy h j st).1 < (dcopy h j st).2.1.length ∧
      dcopyInv h (dcopy h j st).2 ∧
      toTree (dcopy h j st).2.1 (dcopy h j st).1 = toTree h j) :
    ∀ es, (∀ j ∈ es, j < i ∧ j < h.length) → ∀ st, dcopyInv h st →
      (∃ E, (dcopyList h es st).2.1 = st.1 ++ E) ∧
      (∃ F, (dcopyList h es st).2.2 = st.2 ++ F) ∧
      dcopyInv h (dcopyList h es st).2 ∧
      (∀ n ∈ (dcopyList h es st).1, n < (dcopyList h es st).2.1.length) ∧
      ((dcopyList h es st).1).map (toTree (dcopyList h es st).2.1) = es.map (toTree h) := by
  intro es
  induction es with
  | nil =>
    intro _ st hinv
    refine ⟨⟨[], by simp [dcopyList]⟩, ⟨[], by simp [dcopyList]⟩, ?_, ?_, ?_⟩
    · simpa [dcopyList] using hinv
    · intro n hn; simp [dcopyList] at hn
    · simp [dcopyList]
  | cons j es ih =>
    intro hes st hinv
    have hj := hes j (List.mem_cons_self j es)
    have hes' : ∀ j' ∈ es, j' < i ∧ j' < h.length :=
      fun j' hj' => hes j' (List.mem_cons_of_mem j hj')
    obtain ⟨⟨E1, hE1⟩, ⟨F1, hF1⟩, hn1, hinv1, htr1⟩ := IH j hj.1 hj.2 st hinv
    obtain ⟨⟨E2, hE2⟩, ⟨F2, hF2⟩, hinv2, hbound2, hmap2⟩ := ih hes' (dcopy h j st).2 hinv1
    simp only [dcopyList]
    refine ⟨⟨E1 ++ E2, by rw [hE2, hE1, List.append_assoc]⟩,
      ⟨F1 ++ F2, by rw [hF2, hF1, List.append_assoc]⟩, hinv2, ?_, ?_⟩
    · intro n hn
      rcases List.mem_cons.mp hn with hn | hn
      · subst hn
        rw [hE2, List.length_append]
        omega
      · exact hbound2 n hn
    · rw [List.map_cons, hmap2, List.map_cons]
      congr 1
      rw [hE2, toTree_append hn1, htr1]

theorem dcopy_spec {h : List Node} (hw : wfHeap h = true) :
    ∀ i, i < h.length → ∀ st, dcopyInv h st →
      (∃ E, (dcopy h i st).2.1 = st.1 ++ E) ∧
      (∃ F, (dcopy h i st).2.2 = st.2 ++ F) ∧
      (dcopy h i st).1 < (dcopy h i st).2.1.length ∧
      dcopyInv h (dcopy h i st).2 ∧
      toTree (dcopy h i st).2.1 (dcopy h i st).1 = toTree h i := by
  intro i
  induction i using Nat.strong_induction_on with
  | _ i IH =>
    intro hi st hinv
    cases hl : lookupMemo st.2 i with
    | some n =>
      rw [dcopy_memo hl]
      have hmem := lookupMemo_mem hl
      have hp := hinv.2 (i, n) hmem
      exact ⟨⟨[], by simp⟩, ⟨[], by simp⟩, hp.1, hinv, hp.2⟩
    | none =>
      cases hg : h[i]? with
      | none =>
        exfalso
        rw [List.getElem?_eq_none_iff] at hg
        omega
      | some nd =>
        cases nd with
        | atom a =>
          rw [dcopy_leaf hl hg (fun k es => by simp)]
          refine ⟨⟨[.atom a], rfl⟩, ⟨[], by simp⟩, by simp, ⟨?_, ?_⟩, ?_⟩
          · exact wfHeap_append hinv.1 (by simp [nodeChildren])
          · intro q hq
            have hp := hinv.2 q hq
            refine ⟨by rw [List.length_append]; omega, ?_⟩
            rw [toTree_append hp.1, hp.2]
          · rw [toTree_atom (List.getElem?_concat_length st.1 (.atom a)), toTree_atom hg]
        | func fn =>
          rw [dcopy_leaf hl hg (fun k es => by simp)]
          refine ⟨⟨[.func fn], rfl⟩, ⟨[], by simp⟩, by simp, ⟨?_, ?_⟩, ?_⟩
          · exact wfHeap_append hinv.1 (by simp [nodeChildren])
          · intro q hq
            have hp := hinv.2 q hq
            refine ⟨by rw [List.length_append]; omega, ?_⟩
            rw [toTree_append hp.1, hp.2]
          · rw [toTree_func (List.getElem?_concat_length st.1 (.func fn)), toTree_func hg]
        | hooked fn =>
          rw [dcopy_leaf hl hg (fun k es => by simp)]
          refine ⟨⟨[.hooked fn], rfl⟩, ⟨[], by simp⟩, by simp, ⟨?_, ?_⟩, ?_⟩
          · exact wfHeap_append hinv.1 (by simp [nodeChildren])
          · intro q hq
            have hp := hinv.2 q hq
            refine ⟨by rw [List.length_append]; omega, ?_⟩
            rw [toTree_append hp.1, hp.2]
          · rw [toTree_hooked (List.getElem?_concat_length st.1 (.hooked fn)),
              toTree_hooked hg]
        | comp k es =>
          have hlt : ∀ j ∈ es, j < i := fun j hj => wfHeap_children hw hg hj
          have hIH : ∀ j, j < i → j < h.length → ∀ st', dcopyInv h st' →
              (∃ E, (dcopy h j st').2.1 = st'.1 ++ E) ∧
              (∃ F, (dcopy h j st').2.2 = st'.2 ++ F) ∧
              (dcopy h j st').1 < (dcopy h j st').2.1.length ∧
              dcopyInv h (dcopy h j st').2 ∧
              toTree (dcopy h j st').2.1 (dcopy h j st').1 = toTree h j :=
            fun j hji hjl => IH j hji hjl
          obtain ⟨⟨E1, hE1⟩, ⟨F1, hF1⟩, hinv1, hbound1, hmap1⟩ :=
            dcopyList_spec hIH es (fun j hj => ⟨hlt j hj, by have := hlt j hj; omega⟩) st hinv
          rw [dcopy_comp hl hg hlt]
          have hnewtree :
              toTree ((dcopyList h es st).2.1 ++ [.comp k (dcopyList h es st).1])
                (dcopyList h es st).2.1.length = toTree h i := by
            rw [toTree_comp (List.getElem?_concat_length _ _) hbound1,
              toTree_comp hg hlt]
            congr 1
            rw [← hmap1]
            apply List.map_congr_left
            intro n hn
            exact toTree_append (hbound1 n hn)
          refine ⟨⟨E1 ++ [.comp k (dcopyList h es st).1], by rw [hE1, List.append_assoc]⟩,
            ⟨F1 ++ [(i, (dcopyList h es st).2.1.length)], by rw [hF1, List.append_assoc]⟩,
            ?_, ⟨?_, ?_⟩, ?_⟩
          · simp
          · exact wfHeap_append hinv1.1 (by simpa [nodeChildren] using hbound1)
          · intro q hq
            rcases List.mem_append.mp hq with hq | hq
            · have hp := hinv1.2 q hq
              refine ⟨by rw [List.length_append]; omega, ?_⟩
              rw [toTree_append hp.1, hp.2]
            · have : q = (i, (dcopyList h es st).2.1.length) := by simpa using hq
              subst this
              exact ⟨by simp, hnewtree⟩
          · exact hnewtree

theorem deepcopyG_wf {g : PyGraph} (hw : wfG g = true) :
    wfG (deepcopyG g) = true ∧ treeOf (deepcopyG g) = treeOf g := by
  have hparts : wfHeap g.heap = true ∧ g.root < g.heap.length := by
    simpa [wfG, Bool.and_eq_true, decide_eq_true_eq] using hw
  have hinv : dcopyInv g.heap ([], []) := ⟨wfHeap_nil, by intro p hp; cases hp⟩
  obtain ⟨_, _, hroot, hinv', htr⟩ := dcopy_spec hparts.1 g.root hparts.2 ([], []) hinv
  constructor
  · simp only [deepcopyG, wfG, Bool.and_eq_true, decide_eq_true_eq]
    exact ⟨hinv'.1, hroot⟩
  · simpa [deepcopyG, treeOf] using htr

theorem dbsafe_decode_encode {g : PyGraph} (hw : wfG g = true) (co : Bool) (p : Nat)
    (cp : Bool) :
    dbsafe_decode (dbsafe_encode g co p cp) co = some (treeOf g) := by
  have hg' : wfG (if cp then deepcopyG g else g) = true := by
    cases cp
    · simpa using hw
    · simpa using (deepcopyG_wf hw).1
  have htr : treeOf (if cp then deepcopyG g else g) = treeOf g := by
    cases cp
    · simp
    · simpa using (deepcopyG_wf hw).2
  cases co with
  | false =>
    simp only [dbsafe_encode, dbsafe_decode, if_false, Bool.false_eq_true,
      b64decode_encode]
    rw [loads_dumps hg', htr]
  | true =>
    simp only [dbsafe_encode, dbsafe_decode, if_true, b64decode_encode,
      zdecompress_compress]
    rw [loads_dumps hg', htr]

theorem wfG_wrapG {g : PyGraph} (hw : wfG g = true) : wfG (wrapG g) = true := by
  have hparts : wfHeap g.heap = true ∧ g.root < g.heap.length := by
    simpa [wfG, Bool.and_eq_true, decide_eq_true_eq] using hw
  simp only [wrapG, wfG, Bool.and_eq_true, decide_eq_true_eq]
  constructor
  · apply wfHeap_append hparts.1
    intro j hj
    simp only [nodeChildren, List.mem_singleton] at hj
    subst hj
    exact hparts.2
  · simp

theorem treeOf_wrapG {g : PyGraph} (hw : wfG g = true) :
    treeOf (wrapG g) = .comp .wrapper [treeOf g] := by
  have hparts : wfHeap g.heap = true ∧ g.root < g.heap.length := by
    simpa [wfG, Bool.and_eq_true, decide_eq_true_eq] using hw
  simp only [treeOf, wrapG]
  rw [toTree_comp (List.getElem?_concat_length _ _)
    (by intro j hj; simp only [List.mem_singleton] at hj; subst hj; exact hparts.2)]
  simp [toTree_append hparts.2]

/-! ## The claims -/

/-- C1, counterexample: `(t, t)` with `t = [1]` and `([1], [1])` are
equal under Python's `==`, yet `dbsafe_encode` (with `copy=true`)
produces different strings for them, because `deepcopy` preserves — not
collapses — internal sharing, and the serializer emits a back-reference
for the shared slot.  This refutes the claim's "including inputs whose
internal sub-structure is shared differently". -/
theorem claim_c1_counterexample :
    treeOf exGraphShared = treeOf exGraphUnshared ∧
    dbsafe_encode exGraphShared false 2 true ≠ dbsafe_encode exGraphUnshared false 2 true :=
  ⟨rfl, by decide⟩

/-- C1, amended: with `copy=true`, `dbsafe_encode` produces identical
strings for two values whose defensive deep copies are the identical
object graph — i.e. equal values with the *same internal reference
topology*; native equality alone is not sufficient. -/
theorem claim_c1_encode_respects_topology (a b : PyGraph) (co : Bool) (p : Nat)
    (h : deepcopyG a = deepcopyG b) :
    dbsafe_encode a co p true = dbsafe_encode b co p true := by
  simp only [dbsafe_encode, if_true, h]

/-- Witness for C1 (amended): two distinct in-memory states with the
same reachable object graph encode identically. -/
theorem claim_c1_witness :
    deepcopyG exGraphSharedExtra = deepcopyG exGraphShared ∧
    dbsafe_encode exGraphSharedExtra false 2 true = dbsafe_encode exGraphShared false 2 true :=
  ⟨by decide, claim_c1_encode_respects_topology exGraphSharedExtra exGraphShared false 2 (by decide)⟩

/-- C2: for every (well-formed) value and every configuration — any
compress flag, protocol and copy flag — decoding with the matching
compression flag recovers the encoded value: `dbsafe_decode` is a left
inverse of `dbsafe_encode`. -/
theorem claim_c2_roundtrip (g : PyGraph) (co : Bool) (p : Nat) (cp : Bool)
    (hw : wfG g = true) :
    dbsafe_decode (dbsafe_encode g co p cp) co = some (treeOf g) :=
  dbsafe_decode_encode hw co p cp

/-- Witness for C2: the nested scenario value round-trips with
compression and defensive copy enabled. -/
theorem claim_c2_witness :
    wfG exValueGraph = true ∧
    dbsafe_decode (dbsafe_encode exValueGraph true 2 true) true = some (treeOf exValueGraph) :=
  ⟨by decide, claim_c2_roundtrip exValueGraph true 2 true (by decide)⟩

/-- C3: when decoding a non-null stored text fails, `to_python`
re-raises the decode error if and only if the input was tagged as a
`PickledObject`; untagged input is returned unchanged. -/
theorem claim_c3_decode_error_propagation (cfg : FieldCfg) (s : PyStr)
    (hfail : dbsafe_decode s cfg.compress = none) :
    (to_python cfg (some s) = .error .decodeError ↔ s.tagged = true) ∧
    (s.tagged = false → to_python cfg (some s) = .ok (.rraw s)) := by
  simp only [to_python, hfail]
  cases htag : s.tagged <;> simp

/-- Witness for C3: a corrupted tagged blob makes `to_python` raise. -/
theorem claim_c3_witness :
    dbsafe_decode exCorruptTagged cfg0.compress = none ∧
    to_python cfg0 (some exCorruptTagged) = .error .decodeError := by
  refine ⟨by rfl, ?_⟩
  exact ((claim_c3_decode_error_propagation cfg0 exCorruptTagged (by rfl)).1).mpr (by rfl)

/-- C4: the permitted lookups are exactly `exact`, `in` and `isnull`;
any other lookup name fails with an error naming the requested kind. -/
theorem claim_c4_lookup_allowlist (k : String) :
    (k ∈ ["exact", "in", "isnull"] → get_lookup k = .ok k) ∧
    (k ∉ ["exact", "in", "isnull"] →
      get_lookup k = .error ("Lookup type " ++ k ++ " is not supported.")) := by
  constructor
  · intro hk; simp [get_lookup, hk]
  · intro hk; simp [get_lookup, hk]

/-- Witness for C4: `gte` is rejected with a message naming it; the
three allowed kinds are accepted. -/
theorem claim_c4_witness :
    get_lookup "gte" = .error "Lookup type gte is not supported." ∧
    get_lookup "exact" = .ok "exact" ∧ get_lookup "in" = .ok "in" ∧
    get_lookup "isnull" = .ok "isnull" := by
  refine ⟨?_, ?_, ?_, ?_⟩
  · exact (claim_c4_lookup_allowlist "gte").2 (by decide)
  · exact (claim_c4_lookup_allowlist "exact").1 (by decide)
  · exact (claim_c4_lookup_allowlist "in").1 (by decide)
  · exact (claim_c4_lookup_allowlist "isnull").1 (by decide)

/-- C5: a conflictual value (callable, or exposing
`prepare_database_save`) is wrapped in `_ObjectWrapper` by the write
path before encoding, and `to_python` unwraps the decoded wrapper, so
the value round-trips as data — it is never invoked. -/
theorem claim_c5_wrap_roundtrip (cfg : FieldCfg) (g : PyGraph)
    (hw : wfG g = true) (hc : conflictual g = true) :
    get_db_prep_value cfg (pre_save (.vobj g)) =
      .vstr (dbsafe_encode (wrapG g) cfg.compress cfg.protocol cfg.copy) ∧
    to_python cfg (some (dbsafe_encode (wrapG g) cfg.compress cfg.protocol cfg.copy)) =
      .ok (.robj (treeOf g)) := by
  constructor
  · simp [pre_save, wrap_conflictual_object, hc, get_db_prep_value, force_text]
  · have hdec := dbsafe_decode_encode (wfG_wrapG hw) cfg.compress cfg.protocol cfg.copy
    simp only [to_python, hdec, treeOf_wrapG hw]
    simp [unwrapTree]

/-- Witness for C5: a callable written through the write path is
recovered by `to_python` as the same callable-as-data. -/
theorem claim_c5_witness :
    wfG exFuncGraph = true ∧ conflictual exFuncGraph = true ∧
    to_python cfg0 (some (dbsafe_encode (wrapG exFuncGraph) cfg0.compress cfg0.protocol cfg0.copy)) =
      .ok (.robj (treeOf exFuncGraph)) :=
  ⟨by decide, by decide, (claim_c5_wrap_roundtrip cfg0 exFuncGraph (by decide) (by decide)).2⟩

/-- C6: null passes through both directions untouched — `to_python`
returns it without decoding and `get_db_prep_value` without encoding. -/
theorem claim_c6_null_passthrough (cfg : FieldCfg) :
    to_python cfg none = .ok .rnone ∧ get_db_prep_value cfg .vnone = .vnone :=
  ⟨rfl, rfl⟩

/-- C7, counterexample: the field has no lookup-value preparation hook,
so a right-hand-side lookup value is *not* wrapped the way `pre_save`
wraps on write: for a callable the two sides differ, and so do their
encodings. -/
theorem claim_c7_counterexample :
    prepare_lookup_value (.vobj exFuncGraph) ≠
      wrap_conflictual_object (.vobj exFuncGraph) ∧
    get_db_prep_value cfg0 (prepare_lookup_value (.vobj exFuncGraph)) ≠
      get_db_prep_value cfg0 (pre_save (.vobj exFuncGraph)) := by
  decide

/-- C7, amended: the *write* path applies the wrapping rule, without
encoding (`pre_save = wrap_conflictual_object`); encoding happens in one
place, `get_db_prep_value`, and is applied at most once (idempotent via
the `PickledObject` tag); lookup values are passed through unchanged, so
only a caller that wraps the lookup value itself (as the tests do)
obtains a byte-identical comparison. -/
theorem claim_c7_write_path_wrap_once (cfg : FieldCfg) (v : PyVal) :
    pre_save v = wrap_conflictual_object v ∧
    prepare_lookup_value v = v ∧
    get_db_prep_value cfg (get_db_prep_value cfg v) = get_db_prep_value cfg v ∧
    get_db_prep_value cfg (wrap_conflictual_object (prepare_lookup_value v)) =
      get_db_prep_value cfg (pre_save v) := by
  refine ⟨rfl, rfl, ?_, rfl⟩
  cases v with
  | vnone => rfl
  | vstr s =>
    by_cases ht : s.tagged
    · simp [get_db_prep_value, ht]
    · simp [get_db_prep_value, ht, force_text, dbsafe_encode]
  | vobj g => simp [get_db_prep_value, force_text, dbsafe_encode]

/-- C8: a callable default is invoked afresh on each resolution and its
result returned as produced; a static default is returned as-is.  The
codec is applied in neither case. -/
theorem claim_c8_default_resolution (co : Bool) (p : Nat) (cp : Bool)
    (f : Nat → PyVal) (v : PyVal) (n : Nat) :
    get_default ⟨co, p, cp, .dcallable f⟩ n = f n ∧
    get_default ⟨co, p, cp, .dstatic v⟩ n = v :=
  ⟨rfl, rfl⟩

/-- C9: declaring a mutable literal (list/dict/set) as default yields
exactly one diagnostic warning; a callable default yields none.  The
diagnostic is returned, not raised. -/
theorem claim_c9_mutable_default_check (co : Bool) (p : Nat) (cp : Bool)
    (v : PyVal) (f : Nat → PyVal) :
    (isMutableDefault v = true →
      check_default ⟨co, p, cp, .dstatic v⟩ = [mutable_default_warning]) ∧
    check_default ⟨co, p, cp, .dcallable f⟩ = [] := by
  constructor
  · intro hm; simp [check_default, hm]
  · rfl

/-- Witness for C9: `default=[]` warns exactly once. -/
theorem claim_c9_witness :
    isMutableDefault (.vobj exListGraph) = true ∧
    check_default ⟨false, 2, true, .dstatic (.vobj exListGraph)⟩ = [mutable_default_warning] :=
  ⟨by decide,
   (claim_c9_mutable_default_check false 2 true (.vobj exListGraph) (fun _ => .vnone)).1
     (by decide)⟩

/-- C10: `to_python` decodes first — whenever decoding succeeds (tagged
or not) the decoded object is returned; the raw text fallback happens
only when decoding fails. -/
theorem claim_c10_decode_first (cfg : FieldCfg) (s : PyStr) :
    (∀ t, dbsafe_decode s cfg.compress = some t →
      to_python cfg (some s) = .ok (.robj (unwrapTree t))) ∧
    (∀ r, to_python cfg (some s) = .ok (.rraw r) →
      dbsafe_decode s cfg.compress = none ∧ r = s) := by
  constructor
  · intro t ht; simp [to_python, ht]
  · intro r hr
    cases hd : dbsafe_decode s cfg.compress with
    | some t => simp [to_python, hd] at hr
    | none =>
      refine ⟨rfl, ?_⟩
      simp only [to_python, hd] at hr
      by_cases ht : s.tagged
      · simp [ht] at hr
      · simp only [ht, Bool.false_eq_true, if_false] at hr
        cases hr
        rfl

/-- Witness for C10: an untagged plain string that happens to be valid
encoded data is returned as the deserialized object, not as text. -/
theorem claim_c10_witness :
    exBlobUntagged.tagged = false ∧
    to_python cfg0 (some exBlobUntagged) = .ok (.robj (.atom (.pint 5))) := by
  refine ⟨rfl, ?_⟩
  exact (claim_c10_decode_first cfg0 exBlobUntagged).1 (.atom (.pint 5)) (by rfl)
